import Mathlib

/-!
Verification development for `loader.go` (benchmark-log aggregation tool).

The Go source is shallowly embedded as follows:
* `float64` fields are modelled as exact rationals (`ℚ`); the source's
  arithmetic on them (sums, means, squared deviations, divisions) is
  reproduced literally over `ℚ`.
* `int64` fields are modelled as `ℤ`; the source's `int64` division
  truncates toward zero, which is `Int.tdiv`.
* Go maps (`map[string]*workload`, `map[string][]run`) are modelled as
  association lists with unique keys; `append` on a map entry is appending
  to the association list's entry.
* The single square root in the source, `stddev := math.Sqrt(sum2/n)`, is
  only ever used in the comparison `opsSec < mean-stddev || opsSec > mean+stddev`.
  Since both `|opsSec - mean|` and `stddev` are nonnegative, that comparison
  is equivalent to comparing squares, `(opsSec - mean)^2 ≤ sum2/n`, which
  stays inside `ℚ`; the embedding uses the squared form (`inBand`), and the
  equivalence with the spec's `[mean - stddev, mean + stddev]` band over `ℝ`
  is proved (`inBand_iff_specBand`).
-/

namespace Pebble

/-- Type `run` of loader.go: one parsed benchmark line's five numeric fields.
`opsSec`, `readAmp`, `writeAmp` are `float64` in the source (modelled as `ℚ`);
`readBytes`, `writeBytes` are `int64` (modelled as `ℤ`). -/
structure run where
  opsSec : ℚ
  readBytes : ℤ
  writeBytes : ℤ
  readAmp : ℚ
  writeAmp : ℚ
deriving DecidableEq

/-- Local `sum` in `cookDay`: the sum of `opsSec` over the day's runs. -/
def sumOps (runs : List run) : ℚ := (runs.map run.opsSec).sum

/-- Local `mean := sum / float64(len(runs))` in `cookDay`. -/
def mean (runs : List run) : ℚ := sumOps runs / (runs.length : ℚ)

/-- Local `sum2` in `cookDay`: the sum of squared deviations of `opsSec` from `mean`. -/
def sumSq (runs : List run) : ℚ :=
  (runs.map (fun r => (r.opsSec - mean runs) ^ 2)).sum

/-- The quantity `sum2 / float64(len(runs))` in `cookDay`, i.e. `stddev^2`
(the population variance of `opsSec`). -/
def variance (runs : List run) : ℚ := sumSq runs / (runs.length : ℚ)

/-- The filter `!(r.opsSec < lo || r.opsSec > hi)` of `cookDay`, with
`lo = mean - stddev`, `hi = mean + stddev`, `stddev = √(variance)`.
Stated in the square-free equivalent form `(opsSec - mean)^2 ≤ variance`,
which is exactly the same predicate over the reals (`inBand_iff_specBand`). -/
def inBand (runs : List run) (r : run) : Bool :=
  decide ((r.opsSec - mean runs) ^ 2 ≤ variance runs)

/-- The runs of the day that survive the band filter (the ones accumulated
into `avg` by the third loop of `cookDay`). -/
def keptRuns (runs : List run) : List run := runs.filter (inBand runs)

/-- Local `count` in `cookDay`: how many runs survive the band filter. -/
def count (runs : List run) : ℕ := (keptRuns runs).length

/-- Field `avg.opsSec` in `cookDay` just before the final division: the sum of
`opsSec` over the kept runs. -/
def avgOpsSec (runs : List run) : ℚ := ((keptRuns runs).map run.opsSec).sum

/-- Field `avg.readBytes` in `cookDay` just before the final division. -/
def avgReadBytes (runs : List run) : ℤ := ((keptRuns runs).map run.readBytes).sum

/-- Field `avg.writeBytes` in `cookDay` just before the final division. -/
def avgWriteBytes (runs : List run) : ℤ := ((keptRuns runs).map run.writeBytes).sum

/-- Field `avg.readAmp` in `cookDay` just before the final division. -/
def avgReadAmp (runs : List run) : ℚ := ((keptRuns runs).map run.readAmp).sum

/-- Field `avg.writeAmp` in `cookDay` just before the final division. -/
def avgWriteAmp (runs : List run) : ℚ := ((keptRuns runs).map run.writeAmp).sum

/-- Round a rational to the nearest integer, ties to even.  Go's `%.1f`
prints the correctly rounded decimal of the (binary) value; for values the
binary format represents exactly the tie rule is round-half-to-even, which
is what this models over `ℚ`. -/
def roundHalfEven (x : ℚ) : ℤ :=
  if x - ⌊x⌋ < 1 / 2 then ⌊x⌋
  else if 1 / 2 < x - ⌊x⌋ then ⌊x⌋ + 1
  else if ⌊x⌋ % 2 = 0 then ⌊x⌋ else ⌊x⌋ + 1

/-- Go's `%.1f` formatting: the value rounded to one decimal digit, printed
with exactly one digit after the point.  (The float artifact of printing
`-0.0` for tiny negative values has no `ℚ` counterpart and is not modelled.) -/
def fmtF1 (q : ℚ) : String :=
  (if roundHalfEven (10 * q) < 0 then "-" else "") ++
    toString ((roundHalfEven (10 * q)).natAbs / 10) ++ "." ++
    toString ((roundHalfEven (10 * q)).natAbs % 10)

/-- Function `cookDay` of loader.go: aggregate one day's runs into the line
`"%.1f,%d,%d,%.1f,%.1f"`.  The two `%d` fields are the Go `int64` divisions
`avg.readBytes/int64(count)` and `avg.writeBytes/int64(count)`, which
truncate toward zero (`Int.tdiv`). -/
def cookDay (runs : List run) : String :=
  fmtF1 (avgOpsSec runs / (count runs : ℚ)) ++ "," ++
    toString (Int.tdiv (avgReadBytes runs) (count runs : ℤ)) ++ "," ++
    toString (Int.tdiv (avgWriteBytes runs) (count runs : ℤ)) ++ "," ++
    fmtF1 (avgReadAmp runs / (count runs : ℚ)) ++ "," ++
    fmtF1 (avgWriteAmp runs / (count runs : ℚ))

/-- Type `workload` of loader.go: the per-day map `days map[string][]run`,
modelled as an association list with unique keys. -/
abbrev workload := List (String × List run)

/-- The `data map[string]*workload` field of `type loader`, modelled as an
association list with unique keys. -/
abbrev loader := List (String × workload)

/-- Byte-wise/lexicographic string order used by Go's `sort.Strings`.
(UTF-8 byte order and code-point order coincide.) -/
def strLe (a b : String) : Bool := decide (a.data < b.data ∨ a.data = b.data)

/-- Call `sort.Strings(days)` in `cookWorkload`: sort ascending.  Any comparison
sort produces the same list (the sorted permutation is unique as a list),
so the embedding may use insertion sort. -/
def sortStrings (l : List String) : List String :=
  List.insertionSort (fun a b => strLe a b = true) l

/-- Read of `w.days[day]` in `cookWorkload`'s second loop. -/
def lookupDay (w : workload) (day : String) : List run :=
  ((w.find? (fun p => p.1 == day)).map Prod.snd).getD []

/-- The key set of a workload's day map (first loop of `cookWorkload`). -/
def dayKeys (w : workload) : List String := w.map Prod.fst

/-- The sorted day keys of `cookWorkload`. -/
def sortedDays (w : workload) : List String := sortStrings (dayKeys w)

/-- The `bytes.Buffer` accumulation of `cookWorkload`'s second loop:
concatenate the given strings in order. -/
def joinLines : List String → String
  | [] => ""
  | s :: rest => s ++ joinLines rest

/-- Function `cookWorkload` of loader.go: one `fmt.Fprintf(&buf, "%s,%s\n", day, l.cookDay(...))`
per day, days in ascending order, concatenated. -/
def cookWorkload (w : workload) : String :=
  joinLines ((sortedDays w).map (fun day => day ++ "," ++ cookDay (lookupDay w day) ++ "\n"))

/-- Function `cook` of loader.go: the report, mapping each workload name to its blob. -/
def cook (l : loader) : List (String × String) :=
  l.map (fun p => (p.1, cookWorkload p.2))

/-! ### The load phase: path handling, line scanning, store insertion

Line scanning is the `fmt.Sscanf` call of `load` with format
`"Benchmark%s %d %f ops/sec %d read %d write %f r-amp %f w-amp"`.
`Sscanf` semantics are modelled at whitespace-token granularity: after the
literal `Benchmark`, each `%s`/`%d`/`%f` verb skips whitespace and consumes
a maximal non-space token, and each literal must match its token; a `%d`
(`%f`) token that is not entirely an optionally-signed integer (decimal)
numeral makes the scan fail, which in the source surfaces as
`err != nil || n != 7`. -/

/-- Split a character list into its maximal non-space tokens
(accumulator holds the current token reversed). -/
def tokensAux : List Char → List Char → List (List Char)
  | [], acc => if acc.isEmpty then [] else [acc.reverse]
  | c :: cs, acc =>
    if c = ' ' then
      if acc.isEmpty then tokensAux cs [] else acc.reverse :: tokensAux cs []
    else tokensAux cs (c :: acc)

/-- The whitespace-separated tokens of a character list. -/
def tokens (cs : List Char) : List (List Char) := tokensAux cs []

/-- Go's `strings.HasPrefix`: does `cs` start with `pre`? -/
def hasPre : List Char → List Char → Bool
  | [], _ => true
  | _ :: _, [] => false
  | p :: ps, c :: cs => p == c && hasPre ps cs

/-- Is `c` an ASCII decimal digit? -/
def isDigitCh (c : Char) : Bool := 48 ≤ c.toNat && c.toNat ≤ 57

/-- The natural number denoted by a digit string (most significant first). -/
def natOfDigits (cs : List Char) : ℕ :=
  cs.foldl (fun acc c => 10 * acc + (c.toNat - 48)) 0

/-- An unsigned integer token: one or more digits. -/
def parseNatTok (cs : List Char) : Option ℕ :=
  if !cs.isEmpty && cs.all isDigitCh then some (natOfDigits cs) else none

/-- A `%d` token: optional sign, then digits. -/
def parseIntTok : List Char → Option ℤ
  | '-' :: ds => (parseNatTok ds).map (fun n => -(n : ℤ))
  | '+' :: ds => (parseNatTok ds).map (fun n => (n : ℤ))
  | ds => (parseNatTok ds).map (fun n => (n : ℤ))

/-- An unsigned `%f` token: digits, optionally with a decimal point
(`12`, `12.5`, `12.`, `.5`).  The exact decimal value is kept (the source
stores it in a `float64`). -/
def parseFracTok (cs : List Char) : Option ℚ :=
  let ip := cs.takeWhile (fun c => c != '.')
  match cs.dropWhile (fun c => c != '.') with
  | [] => if !ip.isEmpty && ip.all isDigitCh then some ((natOfDigits ip : ℚ)) else none
  | _ :: fp =>
    if ip.isEmpty && fp.isEmpty then none
    else if ip.all isDigitCh && fp.all isDigitCh then
      some ((natOfDigits ip : ℚ) + (natOfDigits fp : ℚ) / (10 ^ fp.length : ℚ))
    else none

/-- A `%f` token: optional sign, then an unsigned decimal numeral. -/
def parseRatTok : List Char → Option ℚ
  | '-' :: ds => (parseFracTok ds).map (fun q => -q)
  | '+' :: ds => parseFracTok ds
  | ds => parseFracTok ds

/-- The `fmt.Sscanf` call of `load`: scan one line against
`"Benchmark%s %d %f ops/sec %d read %d write %f r-amp %f w-amp"`.
On success it yields the workload name (the `%s` capture, i.e. what follows
the `Benchmark` literal up to the next space) and the `run`; the `%d`
iteration count is scanned and discarded, as in the source.  `none` is the
source's `err != nil || n != 7` case. -/
def parseBench (line : String) : Option (String × run) :=
  if hasPre "Benchmark".data line.data then
    match tokens (line.data.drop 9) with
    | nm :: t1 :: t2 :: l1 :: t4 :: l2 :: t6 :: l3 :: t8 :: l4 :: t10 :: l5 :: _ =>
      if !nm.isEmpty && decide (l1 = "ops/sec".data) && decide (l2 = "read".data) &&
          decide (l3 = "write".data) && decide (l4 = "r-amp".data) && decide (l5 = "w-amp".data) then
        match parseIntTok t1, parseRatTok t2, parseIntTok t4, parseIntTok t6,
            parseRatTok t8, parseRatTok t10 with
        | some _, some ops, some rb, some wb, some ra, some wa =>
          some (⟨nm⟩, ⟨ops, rb, wb, ra, wa⟩)
        | _, _, _, _, _, _ => none
      else none
    | _ => none
  else none

/-- Insertion `w.days[day] = append(w.days[day], r)` on a day map: append `r` to the
entry of `day`, creating the entry at the end on first use. -/
def addToDayMap : workload → String → run → workload
  | [], day, r => [(day, [r])]
  | (d, rs) :: rest, day, r =>
    if d = day then (d, rs ++ [r]) :: rest else (d, rs) :: addToDayMap rest day r

/-- The store insertion at the end of `load`'s scan loop: look up the
workload by `name` (creating it with an empty day map if absent, as the
`w == nil` branch does) and append `r` to its `days[day]`. -/
def addRecord : loader → String → String → run → loader
  | [], name, day, r => [(name, [(day, [r])])]
  | (n, w) :: rest, name, day, r =>
    if n = name then (n, addToDayMap w day r) :: rest
    else (n, w) :: addRecord rest name day r

/-- Stand-in for the Go error value rendered by `%v` in the diagnostic
`fmt.Fprintf(os.Stderr, "%s: %v\n", s.Text(), err)`; the exact error text
produced by `fmt.Sscanf` is not modelled, only that some error is printed. -/
def scanErrText : String := "input does not match format"

/-- The diagnostic line printed for a marker-prefixed line that fails to
scan: the raw line, then the scan error, as `"%s: %v\n"` renders it. -/
def scanDiag (line : String) : String := line ++ ": " ++ scanErrText ++ "\n"

/-- The scan loop of `load` over the decompressed lines of one file:
lines without the `Benchmark` marker are skipped silently, marker-prefixed
lines that fail to scan produce a diagnostic and are skipped, and scanned
lines are inserted into the store under the file's `day`.  Returns the
final store and the emitted diagnostics in order. -/
def processLines (day : String) : loader → List String → loader × List String
  | l, [] => (l, [])
  | l, line :: rest =>
    if hasPre "Benchmark".data line.data then
      match parseBench line with
      | some (name, r) => processLines day (addRecord l name day r) rest
      | none =>
        let out := processLines day l rest
        (out.1, scanDiag line :: out.2)
    else processLines day l rest

/-- Go's `strings.Split(path, string(os.PathSeparator))` for the (single
character) platform path separator; like Go's `Split`, empty components are
kept and the result always has at least one component. -/
def splitOnChar (sep : Char) : List Char → List (List Char)
  | [] => [[]]
  | c :: cs =>
    if c = sep then [] :: splitOnChar sep cs
    else
      match splitOnChar sep cs with
      | [] => [[c]]
      | t :: ts => (c :: t) :: ts

/-- The day extraction at the top of `load`: split the path on the
separator; if there are fewer than two components, give up (`return`),
otherwise the day is the second component `parts[1]`. -/
def dayOfPath (sep : Char) (path : String) : Option String :=
  let parts := splitOnChar sep path.data
  if parts.length < 2 then none else (parts[1]?).map (fun cs => (⟨cs⟩ : String))

/-- Function `load` of loader.go, for one input file, given the decompressed lines.
A path with fewer than two components is ignored before the file is even
opened; otherwise all lines are scanned with the path's day.  (The
open/decompress error path, which prints a diagnostic and skips the file,
is I/O and not modelled.) -/
def load (sep : Char) (path : String) (lines : List String) (l : loader) :
    loader × List String :=
  match dayOfPath sep path with
  | none => (l, [])
  | some day => processLines day l lines

/-- Workload lookup in the store (`l.data[name]`), yielding an empty day map
when the name is absent. -/
def lookupWorkload (l : loader) (name : String) : workload :=
  ((l.find? (fun p => p.1 == name)).map Prod.snd).getD []

/-- The runs stored for `(name, day)`. -/
def getRuns (l : loader) (name day : String) : List run :=
  lookupDay (lookupWorkload l name) day

/-! ### Spec-side definitions (Day Aggregator, spec §4.3)

These transcribe the spec's words, to be compared with the source-derived
definitions above: mean of `opsPerSec`, population standard deviation via a
real square root, the inclusive band `[mean - stddev, mean + stddev]`, and
per-field sum-over-kept divided by count. -/

/-- Spec step 1: the arithmetic mean of `opsPerSec` over the group. -/
noncomputable def specMean (runs : List run) : ℝ :=
  (runs.map (fun r => (r.opsSec : ℝ))).sum / (runs.length : ℝ)

/-- Spec step 2: the population standard deviation of `opsPerSec`
(sum of squared deviations divided by the group size, under a square root). -/
noncomputable def specStddev (runs : List run) : ℝ :=
  Real.sqrt ((runs.map (fun r => ((r.opsSec : ℝ) - specMean runs) ^ 2)).sum / (runs.length : ℝ))

/-- Spec step 3: the inclusive band `[mean - stddev, mean + stddev]`. -/
def specBand (runs : List run) (r : run) : Prop :=
  specMean runs - specStddev runs ≤ (r.opsSec : ℝ) ∧
    (r.opsSec : ℝ) ≤ specMean runs + specStddev runs

open Classical in
/-- Spec step 4: keep only the records whose `opsPerSec` lies in the band. -/
noncomputable def specKept (runs : List run) : List run :=
  runs.filter (fun r => decide (specBand runs r))

/-- Spec step 5: for a numeric field `f`, the sum of the kept records'
values divided by the number kept. -/
noncomputable def specAvg (runs : List run) (f : run → ℝ) : ℝ :=
  ((specKept runs).map f).sum / ((specKept runs).length : ℝ)

/-! ### Concrete data used by the examples and witnesses -/

/-- A run with the given throughput and zero in the other fields. -/
def mkRun (ops : ℚ) : run := ⟨ops, 0, 0, 0, 0⟩

/-- The spec's outlier-rejection example group: `opsPerSec`
values `[100, 100, 100, 100, 10000]`. -/
def outlierRuns : List run :=
  [mkRun 100, mkRun 100, mkRun 100, mkRun 100, mkRun 10000]

/-! ## Theorems -/

/-- If every member of a non-empty list exceeds `c`, the sum exceeds
`length * c`. -/
theorem length_mul_lt_sum {c : ℚ} :
    ∀ {l : List ℚ}, l ≠ [] → (∀ x ∈ l, c < x) → (l.length : ℚ) * c < l.sum := by
  intro l
  induction l with
  | nil => intro h; exact absurd rfl h
  | cons x xs ih =>
    intro _ hall
    have hx : c < x := hall x (by simp)
    cases xs with
    | nil => simpa using hx
    | cons y ys =>
      have hrec := ih (by simp) (fun z hz => hall z (List.mem_cons_of_mem _ hz))
      simp only [List.sum_cons, List.length_cons] at *
      push_cast at *
      linarith

/-- Membership in `keptRuns` unfolded. -/
theorem mem_keptRuns {runs : List run} {r : run} :
    r ∈ keptRuns runs ↔ r ∈ runs ∧ inBand runs r = true := List.mem_filter

/-- C1: for every non-empty group of records, at least one record's
`opsSec` lies in the inclusive one-stddev band around the mean, so
`count ≥ 1` and none of the five divisions by `count` in `cookDay`
(including the two `int64` divisions) divides by zero: the `count == 0`
case is unreachable. -/
theorem cookDay_count_ge_one (runs : List run) (h : runs ≠ []) : 1 ≤ count runs := by
  by_contra hc
  have hk : keptRuns runs = [] := by
    have h0 : count runs = 0 := by omega
    exact List.length_eq_zero.mp h0
  have hall : ∀ x ∈ runs.map (fun r => (r.opsSec - mean runs) ^ 2), variance runs < x := by
    intro x hx
    rcases List.mem_map.mp hx with ⟨r, hr, rfl⟩
    by_contra hb
    push_neg at hb
    have hband : inBand runs r = true := by
      simp only [inBand, decide_eq_true_eq]
      exact hb
    have hmem : r ∈ keptRuns runs := mem_keptRuns.mpr ⟨hr, hband⟩
    simp [hk] at hmem
  have hne : runs.map (fun r => (r.opsSec - mean runs) ^ 2) ≠ [] := by
    simpa using h
  have hlt := length_mul_lt_sum hne hall
  have hlen : ((runs.map (fun r => (r.opsSec - mean runs) ^ 2)).length : ℚ) = (runs.length : ℚ) := by
    simp
  have hsum : (runs.map (fun r => (r.opsSec - mean runs) ^ 2)).sum = sumSq runs := rfl
  rw [hlen, hsum] at hlt
  have hlen0 : (runs.length : ℚ) ≠ 0 := by
    have : 0 < runs.length := List.length_pos.mpr h
    exact_mod_cast this.ne'
  have hvs : (runs.length : ℚ) * variance runs = sumSq runs := by
    rw [variance]
    field_simp
  rw [hvs] at hlt
  exact lt_irrefl _ hlt

/-- Witness for C1 at a concrete one-record group. -/
theorem cookDay_count_ge_one_witness :
    ([mkRun 1] : List run) ≠ [] ∧ 1 ≤ count [mkRun 1] :=
  ⟨by decide, cookDay_count_ge_one [mkRun 1] (by decide)⟩

/-- The rational mean of the embedding, cast to `ℝ`, is the spec's mean. -/
theorem cast_mean (runs : List run) : ((mean runs : ℚ) : ℝ) = specMean runs := by
  rw [mean, specMean, sumOps]
  push_cast [Rat.cast_list_sum, List.map_map]
  rfl

/-- The rational variance of the embedding, cast to `ℝ`, is the argument of
the spec's square root. -/
theorem cast_variance (runs : List run) :
    ((variance runs : ℚ) : ℝ) =
      (runs.map (fun r => ((r.opsSec : ℝ) - specMean runs) ^ 2)).sum / (runs.length : ℝ) := by
  have hfun : (Rat.cast ∘ fun r : run => (r.opsSec - mean runs) ^ 2) =
      fun r : run => ((r.opsSec : ℝ) - specMean runs) ^ 2 := by
    funext r
    rw [Function.comp_apply, ← cast_mean]
    push_cast
    ring
  rw [variance, sumSq]
  push_cast [Rat.cast_list_sum, List.map_map]
  rw [hfun]

/-- The variance is nonnegative. -/
theorem variance_nonneg (runs : List run) : 0 ≤ variance runs := by
  rw [variance]
  apply div_nonneg
  · apply List.sum_nonneg
    intro x hx
    rcases List.mem_map.mp hx with ⟨r, _, rfl⟩
    positivity
  · positivity

/-- The square of the spec's standard deviation is the variance of the
embedding. -/
theorem specStddev_sq (runs : List run) : specStddev runs ^ 2 = ((variance runs : ℚ) : ℝ) := by
  rw [specStddev, Real.sq_sqrt, cast_variance]
  rw [← cast_variance]
  exact_mod_cast variance_nonneg runs

/-- The source's band test (`opsSec < mean-stddev || opsSec > mean+stddev`,
negated) agrees with the spec's inclusive band over `ℝ`: the squared
comparison of the embedding is the same predicate. -/
theorem inBand_iff_specBand (runs : List run) (r : run) :
    inBand runs r = true ↔ specBand runs r := by
  rw [inBand, decide_eq_true_eq, specBand]
  have hv : (0 : ℝ) ≤ ((variance runs : ℚ) : ℝ) := by exact_mod_cast variance_nonneg runs
  have hcast : ((r.opsSec - mean runs) ^ 2 ≤ variance runs) ↔
      (((r.opsSec : ℝ) - specMean runs) ^ 2 ≤ ((variance runs : ℚ) : ℝ)) := by
    rw [← cast_mean]
    constructor
    · intro hq
      exact_mod_cast hq
    · intro hr
      have : (((r.opsSec - mean runs : ℚ) : ℝ)) ^ 2 ≤ ((variance runs : ℚ) : ℝ) := by
        push_cast
        exact hr
      exact_mod_cast this
  rw [hcast]
  have habs : (((r.opsSec : ℝ) - specMean runs) ^ 2 ≤ ((variance runs : ℚ) : ℝ)) ↔
      |(r.opsSec : ℝ) - specMean runs| ≤ specStddev runs := by
    rw [specStddev, ← cast_variance]
    rw [Real.le_sqrt (abs_nonneg _) hv, sq_abs]
  rw [habs, abs_le]
  constructor
  · rintro ⟨h1, h2⟩
    constructor <;> linarith
  · rintro ⟨h1, h2⟩
    constructor <;> linarith

/-- The spec's kept list is the source's kept list. -/
theorem specKept_eq (runs : List run) : specKept runs = keptRuns runs := by
  rw [specKept, keptRuns]
  apply List.filter_congr
  intro r _
  rw [show (inBand runs r) = decide (inBand runs r = true) from by simp]
  exact decide_eq_decide.mpr (inBand_iff_specBand runs r).symm

/-- C2: for every non-empty group, the Day Aggregator refines the spec's
pipeline: the mean is the arithmetic mean of `opsSec`, the stddev squared
is the population variance (division by the group size), the kept records
are exactly the ones in the inclusive band `[mean - stddev, mean + stddev]`,
and each of the five per-field averages is the sum over the kept records
divided by the number kept. -/
theorem cookDay_refines_spec (runs : List run) (_h : runs ≠ []) :
    specMean runs = ((mean runs : ℚ) : ℝ) ∧
    specStddev runs ^ 2 = ((variance runs : ℚ) : ℝ) ∧
    specKept runs = keptRuns runs ∧
    (specKept runs).length = count runs ∧
    specAvg runs (fun r => (r.opsSec : ℝ)) = ((avgOpsSec runs : ℚ) : ℝ) / (count runs : ℝ) ∧
    specAvg runs (fun r => (r.readBytes : ℝ)) = ((avgReadBytes runs : ℤ) : ℝ) / (count runs : ℝ) ∧
    specAvg runs (fun r => (r.writeBytes : ℝ)) = ((avgWriteBytes runs : ℤ) : ℝ) / (count runs : ℝ) ∧
    specAvg runs (fun r => (r.readAmp : ℝ)) = ((avgReadAmp runs : ℚ) : ℝ) / (count runs : ℝ) ∧
    specAvg runs (fun r => (r.writeAmp : ℝ)) = ((avgWriteAmp runs : ℚ) : ℝ) / (count runs : ℝ) := by
  have hk := specKept_eq runs
  refine ⟨(cast_mean runs).symm, specStddev_sq runs, hk, by rw [hk, count], ?_, ?_, ?_, ?_, ?_⟩
  · rw [specAvg, hk, avgOpsSec, count]
    rw [Rat.cast_list_sum, List.map_map]
    rfl
  · rw [specAvg, hk, avgReadBytes, count]
    rw [Int.cast_list_sum, List.map_map]
    rfl
  · rw [specAvg, hk, avgWriteBytes, count]
    rw [Int.cast_list_sum, List.map_map]
    rfl
  · rw [specAvg, hk, avgReadAmp, count]
    rw [Rat.cast_list_sum, List.map_map]
    rfl
  · rw [specAvg, hk, avgWriteAmp, count]
    rw [Rat.cast_list_sum, List.map_map]
    rfl

/-- Witness for C2 at a concrete one-record group. -/
theorem cookDay_refines_spec_witness :
    ([mkRun 1] : List run) ≠ [] ∧ specKept [mkRun 1] = keptRuns [mkRun 1] :=
  ⟨by decide, (cookDay_refines_spec [mkRun 1] (by decide)).2.2.1⟩

/-- C3: for a group of exactly one record the variance (hence the stddev)
is `0`, the band degenerates to `[mean, mean]` with `mean` the record's own
`opsSec`, the inclusive comparison retains the record, `count = 1`, and the
emitted line is exactly the record's five fields after formatting. -/
theorem cookDay_single_record (r : run) :
    mean [r] = r.opsSec ∧
    variance [r] = 0 ∧
    keptRuns [r] = [r] ∧
    count [r] = 1 ∧
    cookDay [r] = fmtF1 r.opsSec ++ "," ++ toString r.readBytes ++ "," ++
      toString r.writeBytes ++ "," ++ fmtF1 r.readAmp ++ "," ++ fmtF1 r.writeAmp := by
  have hm : mean [r] = r.opsSec := by
    simp [mean, sumOps]
  have hv : variance [r] = 0 := by
    simp [variance, sumSq, hm]
  have hb : inBand [r] r = true := by
    simp [inBand, hm, hv]
  have hkept : keptRuns [r] = [r] := by
    simp [keptRuns, List.filter, hb]
  have hcount : count [r] = 1 := by
    simp [count, hkept]
  refine ⟨hm, hv, hkept, hcount, ?_⟩
  simp [cookDay, avgOpsSec, avgReadBytes, avgWriteBytes, avgReadAmp, avgWriteAmp,
    hcount, hkept, Int.tdiv_one]

/-- C4: on the group with `opsPerSec` values `[100, 100, 100, 100, 10000]`
the unfiltered mean is `2080`, the `10000` record falls outside the band
and is dropped, the four `100` records are kept, and the aggregated
`opsPerSec` is exactly `100` (not the unfiltered `2080`). -/
theorem cookDay_outlier_rejection :
    mean outlierRuns = 2080 ∧
    inBand outlierRuns (mkRun 10000) = false ∧
    keptRuns outlierRuns = [mkRun 100, mkRun 100, mkRun 100, mkRun 100] ∧
    count outlierRuns = 4 ∧
    avgOpsSec outlierRuns / (count outlierRuns : ℚ) = 100 := by
  have hm : mean outlierRuns = 2080 := by
    rw [mean, sumOps, outlierRuns]
    norm_num [mkRun]
  have hv : variance outlierRuns = 15681600 := by
    rw [variance, sumSq, hm]
    norm_num [outlierRuns, mkRun]
  have h100 : inBand outlierRuns (mkRun 100) = true := by
    rw [inBand, hm, hv]
    norm_num [mkRun]
  have h10000 : inBand outlierRuns (mkRun 10000) = false := by
    rw [inBand, hm, hv]
    norm_num [mkRun]
  have hkept : keptRuns outlierRuns = [mkRun 100, mkRun 100, mkRun 100, mkRun 100] := by
    have hrfl : keptRuns outlierRuns =
        List.filter (inBand outlierRuns) [mkRun 100, mkRun 100, mkRun 100, mkRun 100, mkRun 10000] :=
      rfl
    rw [hrfl]
    simp only [List.filter_cons, List.filter_nil, h100, h10000]
    simp
  have hcount : count outlierRuns = 4 := by
    simp [count, hkept]
  refine ⟨hm, h10000, hkept, hcount, ?_⟩
  rw [avgOpsSec, hkept, hcount]
  norm_num [mkRun]

/-- C5: the line `cookDay` produces for a day is invariant under
permutations of that day's records, so insertion order within a day is
irrelevant to the output. -/
theorem cookDay_perm_invariant {runs runs' : List run} (h : runs.Perm runs') :
    cookDay runs = cookDay runs' := by
  have hm : mean runs = mean runs' := by
    rw [mean, mean, sumOps, sumOps, (h.map run.opsSec).sum_eq, h.length_eq]
  have hv : variance runs = variance runs' := by
    rw [variance, variance, sumSq, sumSq, h.length_eq]
    have hfun : (fun r : run => (r.opsSec - mean runs) ^ 2) =
        fun r : run => (r.opsSec - mean runs') ^ 2 := by
      funext r
      rw [hm]
    rw [hfun, (h.map _).sum_eq]
  have hband : inBand runs = inBand runs' := by
    funext r
    rw [inBand, inBand, hm, hv]
  have hkept : (keptRuns runs).Perm (keptRuns runs') := by
    rw [keptRuns, keptRuns, hband]
    exact h.filter _
  rw [cookDay, cookDay, avgOpsSec, avgOpsSec, avgReadBytes, avgReadBytes,
    avgWriteBytes, avgWriteBytes, avgReadAmp, avgReadAmp, avgWriteAmp, avgWriteAmp,
    count, count, hkept.length_eq, (hkept.map run.opsSec).sum_eq,
    (hkept.map run.readBytes).sum_eq, (hkept.map run.writeBytes).sum_eq,
    (hkept.map run.readAmp).sum_eq, (hkept.map run.writeAmp).sum_eq]

/-- Witness for C5 at a concrete two-record day in both insertion orders. -/
theorem cookDay_perm_invariant_witness :
    ([⟨1, 2, 3, 4, 5⟩, ⟨6, 7, 8, 9, 10⟩] : List run).Perm [⟨6, 7, 8, 9, 10⟩, ⟨1, 2, 3, 4, 5⟩] ∧
    cookDay [⟨1, 2, 3, 4, 5⟩, ⟨6, 7, 8, 9, 10⟩] = cookDay [⟨6, 7, 8, 9, 10⟩, ⟨1, 2, 3, 4, 5⟩] :=
  ⟨List.Perm.swap _ _ _, cookDay_perm_invariant (List.Perm.swap _ _ _)⟩

/-- The boolean comparison used by the embedding's `sort.Strings` is the
lexicographic order on strings. -/
theorem strLe_iff_le (a b : String) : strLe a b = true ↔ a ≤ b := by
  rw [strLe, decide_eq_true_eq, le_iff_lt_or_eq]
  constructor
  · rintro (h | h)
    · exact Or.inl (String.lt_iff_toList_lt.mpr h)
    · exact Or.inr (String.ext h)
  · rintro (h | h)
    · exact Or.inl (String.lt_iff_toList_lt.mp h)
    · exact Or.inr (by rw [h])

/-- Totality of `strLe`. -/
theorem strLe_total (a b : String) : strLe a b = true ∨ strLe b a = true := by
  rcases le_total a b with h | h
  · exact Or.inl ((strLe_iff_le a b).mpr h)
  · exact Or.inr ((strLe_iff_le b a).mpr h)

/-- Transitivity of `strLe`. -/
theorem strLe_trans {a b c : String} (hab : strLe a b = true) (hbc : strLe b c = true) :
    strLe a c = true :=
  (strLe_iff_le a c).mpr (le_trans ((strLe_iff_le a b).mp hab) ((strLe_iff_le b c).mp hbc))

/-- Sorting with `sortStrings` yields an ascending list. -/
theorem sortStrings_sorted (l : List String) : List.Sorted (· ≤ ·) (sortStrings l) := by
  haveI : IsTotal String (fun a b => strLe a b = true) := ⟨strLe_total⟩
  haveI : IsTrans String (fun a b => strLe a b = true) := ⟨fun _ _ _ => strLe_trans⟩
  have hs := List.sorted_insertionSort (fun a b => strLe a b = true) l
  exact hs.imp (fun h => (strLe_iff_le _ _).mp h)

/-- Sorting with `sortStrings` permutes the input. -/
theorem sortStrings_perm (l : List String) : (sortStrings l).Perm l :=
  List.perm_insertionSort _ l

/-- A nonempty concatenation of newline-terminated lines ends in a newline. -/
theorem joinLines_trailing (f : String → String) :
    ∀ ds : List String, ds ≠ [] →
      ∃ t, joinLines (ds.map (fun d => f d ++ "\n")) = t ++ "\n" := by
  intro ds
  induction ds with
  | nil => intro h; exact absurd rfl h
  | cons d rest ih =>
    intro _
    cases rest with
    | nil =>
      exact ⟨f d, by rw [List.map_cons, List.map_nil, joinLines, joinLines, String.append_empty]⟩
    | cons e es =>
      rcases ih (by simp) with ⟨t, ht⟩
      refine ⟨f d ++ "\n" ++ t, ?_⟩
      rw [List.map_cons, joinLines, ht, ← String.append_assoc]

/-- C6: `cookWorkload` emits one `day ++ "," ++ cookDay line ++ "\n"` per
day with the day keys sorted ascending as plain strings regardless of
insertion order, and the blob carries a trailing newline after the last
line; in particular for days inserted in the order
`["2020-01-02", "2020-01-01"]` the `2020-01-01` line comes first. -/
theorem cookWorkload_sorted_lines (w : workload) :
    List.Sorted (· ≤ ·) (sortedDays w) ∧
    (sortedDays w).Perm (dayKeys w) ∧
    cookWorkload w =
      joinLines ((sortedDays w).map (fun day => day ++ "," ++ cookDay (lookupDay w day) ++ "\n")) ∧
    (w ≠ [] → ∃ t, cookWorkload w = t ++ "\n") ∧
    (∀ rs1 rs2 : List run,
      sortedDays [("2020-01-02", rs2), ("2020-01-01", rs1)] = ["2020-01-01", "2020-01-02"] ∧
      cookWorkload [("2020-01-02", rs2), ("2020-01-01", rs1)] =
        "2020-01-01" ++ "," ++ cookDay rs1 ++ "\n" ++ ("2020-01-02" ++ "," ++ cookDay rs2 ++ "\n")) := by
  refine ⟨sortStrings_sorted _, sortStrings_perm _, rfl, ?_, ?_⟩
  · intro hw
    apply joinLines_trailing (fun day => day ++ "," ++ cookDay (lookupDay w day)) (sortedDays w)
    intro hempty
    have hempty' : sortStrings (dayKeys w) = [] := hempty
    have hlen := (sortStrings_perm (dayKeys w)).length_eq
    rw [hempty'] at hlen
    have : w.length = 0 := by simpa [dayKeys] using hlen.symm
    exact hw (List.length_eq_zero.mp this)
  · intro rs1 rs2
    constructor
    · rfl
    · show joinLines _ = _
      rw [show sortedDays [("2020-01-02", rs2), ("2020-01-01", rs1)] =
          ["2020-01-01", "2020-01-02"] from rfl]
      rw [List.map_cons, List.map_cons, List.map_nil, joinLines, joinLines, joinLines]
      rw [show lookupDay [("2020-01-02", rs2), ("2020-01-01", rs1)] "2020-01-01" = rs1 from rfl]
      rw [show lookupDay [("2020-01-02", rs2), ("2020-01-01", rs1)] "2020-01-02" = rs2 from rfl]
      rw [String.append_empty]

/-- Witness for C6 at a concrete two-day workload. -/
theorem cookWorkload_sorted_lines_witness :
    ([("2020-01-02", ([] : List run)), ("2020-01-01", [])] : workload) ≠ [] ∧
    (∃ t, cookWorkload [("2020-01-02", ([] : List run)), ("2020-01-01", [])] = t ++ "\n") ∧
    sortedDays [("2020-01-02", ([] : List run)), ("2020-01-01", [])] =
      ["2020-01-01", "2020-01-02"] := by
  have h := cookWorkload_sorted_lines [("2020-01-02", ([] : List run)), ("2020-01-01", [])]
  exact ⟨by decide, h.2.2.2.1 (by decide), (h.2.2.2.2 [] []).1⟩

/-- Rounding to the nearest integer (ties to even) is off by at most a half. -/
theorem roundHalfEven_err (x : ℚ) : |(roundHalfEven x : ℚ) - x| ≤ 1 / 2 := by
  have hfl : (⌊x⌋ : ℚ) ≤ x := Int.floor_le x
  have hfu : x < (⌊x⌋ : ℚ) + 1 := Int.lt_floor_add_one x
  rw [roundHalfEven]
  split_ifs with h1 h2 h3 <;>
    · refine abs_le.mpr ⟨?_, ?_⟩ <;> push_cast <;> linarith

/-- C7: `cookDay` renders the three `float64` averages with `%.1f` (one
digit after the decimal point, value rounded to the nearest tenth) and the
two byte averages with the `int64` division by `count`, which truncates
toward zero: the printed magnitude is the floor of the magnitude quotient
and the sign never rounds away from zero. -/
theorem cookDay_field_formats (runs : List run) :
    cookDay runs =
      fmtF1 (avgOpsSec runs / (count runs : ℚ)) ++ "," ++
        toString (Int.tdiv (avgReadBytes runs) (count runs : ℤ)) ++ "," ++
        toString (Int.tdiv (avgWriteBytes runs) (count runs : ℤ)) ++ "," ++
        fmtF1 (avgReadAmp runs / (count runs : ℚ)) ++ "," ++
        fmtF1 (avgWriteAmp runs / (count runs : ℚ)) ∧
    (∀ q : ℚ, |(roundHalfEven (10 * q) : ℚ) - 10 * q| ≤ 1 / 2 ∧
      ∃ (s : String) (m d : ℕ), (s = "-" ∨ s = "") ∧ d < 10 ∧
        fmtF1 q = s ++ toString m ++ "." ++ toString d) ∧
    (∀ (a : ℤ) (b : ℕ), 0 < b →
      (Int.tdiv a (b : ℤ)).natAbs = a.natAbs / b ∧
      (0 ≤ a → 0 ≤ Int.tdiv a (b : ℤ)) ∧
      (a ≤ 0 → Int.tdiv a (b : ℤ) ≤ 0)) := by
  refine ⟨rfl, ?_, ?_⟩
  · intro q
    refine ⟨roundHalfEven_err (10 * q), ?_⟩
    refine ⟨if roundHalfEven (10 * q) < 0 then "-" else "",
      (roundHalfEven (10 * q)).natAbs / 10, (roundHalfEven (10 * q)).natAbs % 10, ?_, ?_, rfl⟩
    · split_ifs
      · exact Or.inl rfl
      · exact Or.inr rfl
    · exact Nat.mod_lt _ (by norm_num)
  · intro a b _hb
    refine ⟨?_, ?_, ?_⟩
    · rw [Int.natAbs_tdiv, Int.natAbs_ofNat]
      rfl
    · intro ha
      exact Int.tdiv_nonneg ha (by positivity)
    · intro ha
      have hneg : Int.tdiv a (b : ℤ) = -((-a).tdiv (b : ℤ)) := by
        rw [← Int.neg_tdiv, neg_neg]
      rw [hneg]
      exact neg_nonpos.mpr (Int.tdiv_nonneg (by linarith) (by positivity))

/-- Witness for C7 at concrete inputs: the one-record day `[mkRun 1]`, the
value `1/4` for `%.1f`, and `-7 / 2` for the truncating division. -/
theorem cookDay_field_formats_witness :
    (|(roundHalfEven (10 * (1 / 4 : ℚ)) : ℚ) - 10 * (1 / 4 : ℚ)| ≤ 1 / 2 ∧
      ∃ (s : String) (m d : ℕ), (s = "-" ∨ s = "") ∧ d < 10 ∧
        fmtF1 (1 / 4 : ℚ) = s ++ toString m ++ "." ++ toString d) ∧
    (0 : ℕ) < 2 ∧
    (Int.tdiv (-7 : ℤ) ((2 : ℕ) : ℤ)).natAbs = (-7 : ℤ).natAbs / 2 ∧
    ((-7 : ℤ) ≤ 0 → Int.tdiv (-7 : ℤ) ((2 : ℕ) : ℤ) ≤ 0) :=
  ⟨(cookDay_field_formats [mkRun 1]).2.1 (1 / 4), by decide,
    ((cookDay_field_formats [mkRun 1]).2.2 (-7) 2 (by decide)).1,
    ((cookDay_field_formats [mkRun 1]).2.2 (-7) 2 (by decide)).2.2⟩

/-- C8: a line without the `Benchmark` marker is skipped silently (the
store and the diagnostics are exactly those of the remaining lines), while
a marker-prefixed line that fails the scan leaves the store untouched,
prepends one diagnostic that begins with the raw line, and does not stop
the processing of the remaining lines. -/
theorem load_line_handling (day : String) (l : loader) (line : String) (rest : List String) :
    (hasPre "Benchmark".data line.data = false →
      processLines day l (line :: rest) = processLines day l rest) ∧
    (hasPre "Benchmark".data line.data = true → parseBench line = none →
      (processLines day l (line :: rest)).1 = (processLines day l rest).1 ∧
      (processLines day l (line :: rest)).2 =
        scanDiag line :: (processLines day l rest).2 ∧
      ∃ t, scanDiag line = line ++ t) := by
  constructor
  · intro h
    rw [processLines]
    simp [h]
  · intro h hp
    rw [processLines]
    simp only [h, if_true, hp]
    refine ⟨trivial, trivial, ": " ++ scanErrText ++ "\n", ?_⟩
    simp [scanDiag, String.append_assoc]

/-- Witness for C8: the unmarked line `"hello"` and the spec's malformed
marker line, against an empty store. -/
theorem load_line_handling_witness :
    (hasPre "Benchmark".data ("hello" : String).data = false ∧
      processLines "d" [] ["hello"] = processLines "d" [] []) ∧
    hasPre "Benchmark".data ("BenchmarkFoo not-a-number ops/sec x" : String).data = true ∧
    parseBench "BenchmarkFoo not-a-number ops/sec x" = none ∧
    (processLines "d" [] ["BenchmarkFoo not-a-number ops/sec x"]).1 =
      (processLines "d" [] ([] : List String)).1 ∧
    (processLines "d" [] ["BenchmarkFoo not-a-number ops/sec x"]).2 =
      scanDiag "BenchmarkFoo not-a-number ops/sec x" ::
        (processLines "d" [] ([] : List String)).2 :=
  ⟨⟨by decide, (load_line_handling "d" [] "hello" []).1 (by decide)⟩,
    by decide, by decide,
    ((load_line_handling "d" [] "BenchmarkFoo not-a-number ops/sec x" []).2
      (by decide) (by decide)).1,
    ((load_line_handling "d" [] "BenchmarkFoo not-a-number ops/sec x" []).2
      (by decide) (by decide)).2.1⟩

/-- Appending a run under one day leaves every other day's bucket alone. -/
theorem lookupDay_addToDayMap_ne (day d' : String) (r : run) (h : d' ≠ day) :
    ∀ w : workload, lookupDay (addToDayMap w day r) d' = lookupDay w d' := by
  have hb : (day == d') = false := by
    simp only [beq_eq_false_iff_ne, ne_eq]
    exact fun e => h e.symm
  intro w
  induction w with
  | nil => simp [addToDayMap, lookupDay, List.find?, hb]
  | cons p rest ih =>
    obtain ⟨d, rs⟩ := p
    by_cases hd : d = day
    · subst hd
      simp [addToDayMap, lookupDay, List.find?, hb]
    · rw [show addToDayMap ((d, rs) :: rest) day r = (d, rs) :: addToDayMap rest day r from by
        simp [addToDayMap, hd]]
      cases hbd : (d == d') with
      | false =>
        simp only [lookupDay, List.find?, hbd] at ih ⊢
        exact ih
      | true => simp [lookupDay, List.find?, hbd]

/-- Inserting a record under `(name, day)` leaves every bucket with a
different day alone, for every workload name. -/
theorem getRuns_addRecord_ne (name day name' d' : String) (r : run) (h : d' ≠ day) :
    ∀ l : loader, getRuns (addRecord l name day r) name' d' = getRuns l name' d' := by
  have hb : (day == d') = false := by
    simp only [beq_eq_false_iff_ne, ne_eq]
    exact fun e => h e.symm
  intro l
  induction l with
  | nil =>
    cases hnn : (name == name') with
    | false => simp [addRecord, getRuns, lookupWorkload, List.find?, hnn, lookupDay]
    | true => simp [addRecord, getRuns, lookupWorkload, List.find?, hnn, lookupDay, hb]
  | cons p rest ih =>
    obtain ⟨n, w⟩ := p
    by_cases hn : n = name
    · subst hn
      rw [show addRecord ((n, w) :: rest) n day r = (n, addToDayMap w day r) :: rest from by
        simp [addRecord]]
      cases hnn : (n == name') with
      | false => simp only [getRuns, lookupWorkload, List.find?, hnn]
      | true =>
        simp [getRuns, lookupWorkload, List.find?, hnn,
          lookupDay_addToDayMap_ne day d' r h w]
    · rw [show addRecord ((n, w) :: rest) name day r = (n, w) :: addRecord rest name day r from by
        simp [addRecord, hn]]
      cases hnn : (n == name') with
      | false =>
        simp only [getRuns, lookupWorkload, List.find?, hnn] at ih ⊢
        exact ih
      | true => simp [getRuns, lookupWorkload, List.find?, hnn]

/-- Scanning a file's lines with day `day` never touches a bucket of a
different day: every record the scan inserts is assigned `day`. -/
theorem getRuns_processLines_ne (day name d' : String) (h : d' ≠ day) :
    ∀ (lines : List String) (l : loader),
      getRuns (processLines day l lines).1 name d' = getRuns l name d' := by
  intro lines
  induction lines with
  | nil => intro l; rfl
  | cons line rest ih =>
    intro l
    rw [processLines]
    by_cases hpre : hasPre "Benchmark".data line.data
    · simp only [hpre, if_true]
      cases hp : parseBench line with
      | none => simpa using ih l
      | some nr =>
        obtain ⟨nm, r⟩ := nr
        rw [ih (addRecord l nm day r), getRuns_addRecord_ne nm day name d' r h l]
    · simp only [hpre, if_false]
      exact ih l

/-- C9: the day identifier for a file is the second component of its path
split on the platform separator, however deep the file is; all records the
file's scan inserts go under that day (buckets of any other day are
untouched); and a path with fewer than two components is silently ignored:
no store change and no diagnostics. -/
theorem load_day_from_path (sep : Char) (path : String) (lines : List String) (l : loader) :
    ((splitOnChar sep path.data).length < 2 →
      dayOfPath sep path = none ∧ load sep path lines l = (l, [])) ∧
    (∀ cs : List Char, (splitOnChar sep path.data)[1]? = some cs →
      dayOfPath sep path = some (⟨cs⟩ : String) ∧
      load sep path lines l = processLines (⟨cs⟩ : String) l lines ∧
      ∀ name d', d' ≠ (⟨cs⟩ : String) →
        getRuns (load sep path lines l).1 name d' = getRuns l name d') := by
  constructor
  · intro h
    have hd : dayOfPath sep path = none := by
      rw [dayOfPath]
      simp [h]
    exact ⟨hd, by rw [load, hd]⟩
  · intro cs hcs
    have hlen : 1 < (splitOnChar sep path.data).length := by
      by_contra hl
      push_neg at hl
      rw [List.getElem?_eq_none hl] at hcs
      cases hcs
    have hd : dayOfPath sep path = some (⟨cs⟩ : String) := by
      rw [dayOfPath]
      simp [show ¬ (splitOnChar sep path.data).length < 2 from by omega, hcs]
    refine ⟨hd, by rw [load, hd], ?_⟩
    intro name d' hne
    rw [load, hd]
    exact getRuns_processLines_ne _ name d' hne lines l

/-- Witness for C9: a one-component path is ignored; a path three levels
deep still gets day `2020-01-01` from its second component. -/
theorem load_day_from_path_witness :
    ((splitOnChar '/' ("nodir" : String).data).length < 2 ∧
      dayOfPath '/' "nodir" = none ∧
      load '/' "nodir" [] [] = ([], [])) ∧
    (splitOnChar '/' ("data/2020-01-01/sub/run1.bz2" : String).data)[1]? =
      some ("2020-01-01" : String).data ∧
    dayOfPath '/' "data/2020-01-01/sub/run1.bz2" = some "2020-01-01" :=
  ⟨⟨by decide, (load_day_from_path '/' "nodir" [] []).1 (by decide)⟩,
    by decide,
    ((load_day_from_path '/' "data/2020-01-01/sub/run1.bz2" [] []).2
      ("2020-01-01" : String).data (by decide)).1⟩

/-- C10: producing the report is a pure read of the store: `cook`,
`cookWorkload` and `cookDay` in the source only read `l.data` (there is no
map or slice write anywhere on that path), which the embedding reflects by
`cook` being a function of the store value — the store, every workload's
day map and every stored record are the same after the report is built.
The report has exactly one entry per workload, keyed by the workload's
name, with the cooked blob as value. -/
theorem cook_pure (l : loader) :
    (cook l).map Prod.fst = l.map Prod.fst ∧
    ∀ p ∈ l, (p.1, cookWorkload p.2) ∈ cook l := by
  constructor
  · rw [cook, List.map_map]
    rfl
  · intro p hp
    rw [cook]
    exact List.mem_map.mpr ⟨p, hp, rfl⟩

/-- Witness for C10 at a one-workload store. -/
theorem cook_pure_witness :
    (cook [("x", [("2020-01-01", [mkRun 1])])]).map Prod.fst =
      [("x", [("2020-01-01", [mkRun 1])])].map Prod.fst ∧
    ("x", cookWorkload [("2020-01-01", [mkRun 1])]) ∈
      cook [("x", [("2020-01-01", [mkRun 1])])] :=
  ⟨(cook_pure [("x", [("2020-01-01", [mkRun 1])])]).1,
    (cook_pure [("x", [("2020-01-01", [mkRun 1])])]).2
      ("x", [("2020-01-01", [mkRun 1])]) (by decide)⟩

end Pebble
